import Mathlib

/-!
A shallow embedding of the spaced-repetition engine in src/engine/srs.ts of
poker-learn.  JavaScript numbers are modelled as exact arithmetic: the
integer-valued fields (interval, repetitions, due, lastSeen, the virtual
clock and the statistics counters) as Int, and the ease factor as Rat.
Math.round x is floor (x + 1/2) for the non-negative values this program
feeds it.  The browser localStorage is modelled by two slots whose parsed
content is explicit, so that absent, unparseable and wrong-shape data are
all representable.
-/

namespace PokerSRS

set_option maxRecDepth 8192

/-- One reviewable combination (Combo in src/data/ranges.ts, whose module
is embedded in the sources inside CheatSheet.tsx): a hand with a position.
The Position union type is four string literals at runtime, so position is
a string here, exactly as srs.ts stores it. -/
structure Combo where
  hand : String
  position : String
deriving DecidableEq, Repr, Inhabited

/-- Hand column of the RANGES table in src/data/ranges.ts, in table order
(the spread-out groups 66..22, A9s..A2s and JTs..98s written out).  Only
the hand field of a RangeEntry is read by getAllCombos, so the rest of the
table (the action lists) is not needed by the engine. -/
def rangeHands : List String :=
  ["AA", "KK", "QQ", "JJ",
   "TT", "99",
   "88", "77",
   "66", "55", "44", "33", "22",
   "AKs", "AKo", "AQs",
   "AQo", "AJs", "ATs",
   "KQs", "KJs",
   "A9s", "A8s", "A7s", "A6s", "A5s", "A4s", "A3s", "A2s",
   "JTs", "T9s", "98s"]

/-- The four positions, in the order getAllCombos iterates them. -/
def rangePositions : List String := ["UTG", "Middle", "Cutoff", "Blinds"]

/-- getAllCombos in src/data/ranges.ts: the nested loops push one combo per
RANGES entry and position, entry-major. -/
def getAllCombos : List Combo :=
  rangeHands.flatMap (fun h => rangePositions.map (fun p => { hand := h, position := p }))

/-- Review state of one item (CardState in srs.ts). -/
structure CardState where
  hand : String
  position : String
  interval : ℤ
  ease : ℚ
  repetitions : ℤ
  due : ℤ
  lastSeen : ℤ
deriving DecidableEq, Repr, Inhabited

/-- Aggregate session statistics (Stats in srs.ts). -/
structure Stats where
  totalReviews : ℤ
  correctReviews : ℤ
  currentStreak : ℤ
  bestStreak : ℤ
deriving DecidableEq, Repr, Inhabited

/-- Result of JSON.parse on the stats slot: either a value of exactly the
Stats shape, or some other JSON value (which the untyped source returns
unvalidated). -/
inductive StatsJson where
  | ok (s : Stats)
  | other
deriving DecidableEq, Repr

/-- Raw content of the stats slot of durable storage. -/
inductive StatsStored where
  | absent
  | unparseable
  | parsed (j : StatsJson)
deriving DecidableEq, Repr

/-- Raw content of the deck slot of durable storage.  parsedNonArray is a
JSON value on which the for..of loop of loadDeck throws (the error is
caught); parsedArray is an array of CardState records. -/
inductive DeckStored where
  | absent
  | unparseable
  | parsedNonArray
  | parsedArray (arr : List CardState)
deriving DecidableEq, Repr

/-- The two independently keyed blobs of durable storage. -/
structure Storage where
  deckSlot : DeckStored
  statsSlot : StatsStored
deriving DecidableEq, Repr

/-- Insertion-ordered string-keyed map, the model of the JavaScript Map
backing the deck. -/
abbrev DeckMap : Type := List (String × CardState)

/-- Map.prototype.get: the value at key k, if present. -/
def mapGet (m : DeckMap) (k : String) : Option CardState :=
  match m with
  | [] => none
  | (k1, v) :: rest => if k1 = k then some v else mapGet rest k

/-- Map.prototype.set: replace the value at key k in place, or append a new
entry; a JavaScript Map preserves insertion order. -/
def mapSet (m : DeckMap) (k : String) (v : CardState) : DeckMap :=
  match m with
  | [] => [(k, v)]
  | (k1, v1) :: rest => if k1 = k then (k, v) :: rest else (k1, v1) :: mapSet rest k v

/-- Map.prototype.values as a list, in insertion order. -/
def values (m : DeckMap) : List CardState := m.map Prod.snd

/-- The process-wide mutable state of srs.ts: the lazily materialized deck
(null before the first load), the virtual clock, and the durable storage
the module reads and writes. -/
structure Engine where
  deck : Option DeckMap
  clock : ℤ
  storage : Storage
deriving DecidableEq, Repr

/-- defaultStats in srs.ts. -/
def defaultStats : Stats :=
  { totalReviews := 0, correctReviews := 0, currentStreak := 0, bestStreak := 0 }

/-- loadStats in srs.ts: absent or unparseable content falls back to the
defaults (the parse error is caught); any successfully parsed JSON value is
returned without validation. -/
def loadStats : StatsStored → StatsJson
  | .absent => .ok defaultStats
  | .unparseable => .ok defaultStats
  | .parsed j => j

/-- saveStats in srs.ts: serializing a Stats record produces a blob that
parses back to exactly that record. -/
def saveStats (s : Stats) : StatsStored := .parsed (.ok s)

/-- getStats in srs.ts. -/
def getStats (e : Engine) : StatsJson := loadStats e.storage.statsSlot

/-- resetProgress in srs.ts: removes both durable blobs. -/
def resetProgress (e : Engine) : Engine :=
  { e with storage := { deckSlot := .absent, statsSlot := .absent } }

/-- comboKey in srs.ts. -/
def comboKey (c : Combo) : String := c.hand ++ "|" ++ c.position

/-- Key under which loadDeck and recordAnswer file a CardState. -/
def cardKey (cs : CardState) : String := cs.hand ++ "|" ++ cs.position

/-- loadDeck in srs.ts: a parsed array is re-keyed entry by entry; absent,
unparseable or non-iterable content yields a fresh empty map (the thrown
error, if any, is caught). -/
def loadDeck : DeckStored → DeckMap
  | .parsedArray arr => arr.foldl (fun m cs => mapSet m (cardKey cs) cs) []
  | _ => []

/-- saveDeck in srs.ts: stores the array of values of the map. -/
def saveDeck (d : DeckMap) : DeckStored := .parsedArray (values d)

/-- Default CardState created for a catalog combo missing from the deck
(the object literal in ensureDeck). -/
def freshCard (c : Combo) : CardState :=
  { hand := c.hand
    position := c.position
    interval := 0
    ease := 5/2
    repetitions := 0
    due := 0
    lastSeen := -1 }

/-- First loop of ensureDeck: ensure every catalog combo exists in the
deck. -/
def materialize (catalog : List Combo) (m : DeckMap) : DeckMap :=
  catalog.foldl
    (fun m c =>
      if (mapGet m (comboKey c)).isSome then m else mapSet m (comboKey c) (freshCard c))
    m

/-- One entry of the clock bootstrap loop in ensureDeck: two sequential if
statements, the second reading the clock already updated by the first. -/
def bootStep (cl : ℤ) (cs : CardState) : ℤ :=
  let cl1 := if cs.due > cl then cs.due else cl
  if cs.lastSeen ≥ cl1 then cs.lastSeen + 1 else cl1

/-- Second loop of ensureDeck: derive the virtual clock from the loaded
values. -/
def bootClock (cl : ℤ) (l : List CardState) : ℤ := l.foldl bootStep cl

/-- ensureDeck in srs.ts: returns the materialized deck together with the
updated module state. -/
def ensureDeck (catalog : List Combo) (e : Engine) : DeckMap × Engine :=
  match e.deck with
  | some d => (d, e)
  | none =>
    let d := materialize catalog (loadDeck e.storage.deckSlot)
    (d, { e with deck := some d, clock := bootClock e.clock (values d) })

/-- Math.round for the non-negative values this program feeds it:
round x = floor (x + 1/2). -/
def jsRound (q : ℚ) : ℤ := Rat.floor (q + 1/2)

/-- Comparator passed to Array.prototype.sort in getNextCard: ascending by
due.  Array.prototype.sort is a stable sort; it is modelled by stable
insertion sort under this relation. -/
def dueOrder (a b : CardState) : Prop := a.due ≤ b.due

instance : DecidableRel dueOrder := fun a b => Int.decLe a.due b.due

instance : IsTotal CardState dueOrder := ⟨fun a b => Int.le_total a.due b.due⟩

instance : IsTrans CardState dueOrder := ⟨fun _ _ _ h1 h2 => Int.le_trans h1 h2⟩

/-- Candidate pool construction shared by both branches of getNextCard:
sort ascending by due, take minDue from the front, keep everything within
minDue + 2. -/
def slackPool (cards : List CardState) : List CardState :=
  let sorted := List.insertionSort dueOrder cards
  let minDue := (sorted.headD default).due
  sorted.filter (fun c => c.due ≤ minDue + 2)

/-- getNextCard in srs.ts.  Math.random delivers an index in [0, pool
length); it is modelled by an arbitrary natural number reduced modulo the
pool length, which reaches exactly the same elements.  On an empty deck the
source dereferences undefined and throws; that is the none result. -/
def getNextCard (catalog : List Combo) (e : Engine) (rand : ℕ) :
    Option CardState × Engine :=
  let (d, e1) := ensureDeck catalog e
  let cards := values d
  let dueCards := cards.filter (fun c => c.due ≤ e1.clock)
  let pool := if dueCards.length > 0 then slackPool dueCards else slackPool cards
  (pool.get? (rand % pool.length), e1)

/-- Stats update block of recordAnswer. -/
def updateStats (s : Stats) (correct : Bool) : Stats :=
  if correct then
    let cur := s.currentStreak + 1
    { totalReviews := s.totalReviews + 1
      correctReviews := s.correctReviews + 1
      currentStreak := cur
      bestStreak := if cur > s.bestStreak then cur else s.bestStreak }
  else
    { s with totalReviews := s.totalReviews + 1, currentStreak := 0 }

/-- Correct branch of the SM-2 inspired update in recordAnswer. -/
def updateCorrect (card : CardState) : CardState :=
  let reps := card.repetitions + 1
  let newInterval : ℤ :=
    if reps = 1 then 1
    else if reps = 2 then 3
    else jsRound ((card.interval : ℚ) * card.ease)
  { card with
    repetitions := reps
    interval := newInterval
    ease := max (13/10) (card.ease + 1/10) }

/-- Incorrect branch of the update in recordAnswer. -/
def updateIncorrect (card : CardState) : CardState :=
  { card with repetitions := 0, interval := 0, ease := max (13/10) (card.ease - 3/10) }

/-- Card update portion of recordAnswer: the SM-2 inspired branch followed
by the assignments of due and lastSeen from the post-increment clock. -/
def answeredCard (card : CardState) (correct : Bool) (clock : ℤ) : CardState :=
  let card1 := if correct then updateCorrect card else updateIncorrect card
  { card1 with due := clock + card1.interval, lastSeen := clock }

/-- recordAnswer in srs.ts.  One behaviour falls outside the total-function
model: when the stats slot parses to a value that is not a Stats record, the
strict-mode counter increment throws; that path is the none result, and it
is unreachable from states whose stats slot is well-formed. -/
def recordAnswer (catalog : List Combo) (e : Engine) (hand position : String)
    (correct : Bool) : Option Engine :=
  let (d, e1) := ensureDeck catalog e
  let key := hand ++ "|" ++ position
  match mapGet d key with
  | none => some e1
  | some card =>
    let clock := e1.clock + 1
    match loadStats e1.storage.statsSlot with
    | .other => none
    | .ok stats =>
      let stats1 := updateStats stats correct
      let card2 := answeredCard card correct clock
      let d1 := mapSet d key card2
      some { deck := some d1
             clock := clock
             storage := { deckSlot := saveDeck d1, statsSlot := saveStats stats1 } }

/-- reloadDeck in srs.ts: drop the in-memory deck and reset the clock. -/
def reloadDeck (e : Engine) : Engine := { e with deck := none, clock := 0 }

/-- Module initial state: deck null, clock 0, over whatever durable storage
the browser holds. -/
def initial (st : Storage) : Engine := { deck := none, clock := 0, storage := st }

/-- Freshly installed state: nothing persisted yet. -/
def freshEngine : Engine := initial { deckSlot := .absent, statsSlot := .absent }

/-- Engine states reachable from a fresh install by recorded answers. -/
inductive Reachable (catalog : List Combo) : Engine → Prop where
  | init : Reachable catalog freshEngine
  | record {e e1 : Engine} {hand position : String} {correct : Bool} :
      Reachable catalog e →
      recordAnswer catalog e hand position correct = some e1 →
      Reachable catalog e1

/-- Specification-side quantity for the clock bootstrap: the maximum over
all entries of max (due, lastSeen + 1), together with the default 0 of an
empty or fresh deck. -/
def specBootMax (l : List CardState) : ℤ :=
  l.foldr (fun cs m => max (max cs.due (cs.lastSeen + 1)) m) 0

/-- Per-card invariant maintained by the engine: the ease floor together
with the interval lower bounds implied by the repetition count. -/
def GoodCard (c : CardState) : Prop :=
  13/10 ≤ c.ease ∧ 0 ≤ c.interval ∧ 0 ≤ c.repetitions ∧
  (1 ≤ c.repetitions → 1 ≤ c.interval) ∧ (2 ≤ c.repetitions → 3 ≤ c.interval)

/-- Every entry of the map is filed under the key derived from its own
identity, as every write in srs.ts is. -/
def WellKeyed (m : DeckMap) : Prop := ∀ p ∈ m, cardKey p.2 = p.1

/-- Keys of the map are pairwise distinct, as a JavaScript Map guarantees. -/
def NodupKeys (m : DeckMap) : Prop := (m.map Prod.fst).Nodup

/-- Concrete card for the selection example of the spec: identity by name,
fresh schedule fields except the given due value. -/
def exampleCard (h : String) (d : ℤ) : CardState :=
  { hand := h
    position := "P"
    interval := 0
    ease := 5/2
    repetitions := 0
    due := d
    lastSeen := 0 }

/-- Loaded engine of the selection example: due values 5, 5, 6 and 9 with
the clock at 7. -/
def exampleEngine : Engine :=
  { deck := some [(cardKey (exampleCard "a" 5), exampleCard "a" 5),
                  (cardKey (exampleCard "b" 5), exampleCard "b" 5),
                  (cardKey (exampleCard "c" 6), exampleCard "c" 6),
                  (cardKey (exampleCard "d" 9), exampleCard "d" 9)]
    clock := 7
    storage := { deckSlot := .absent, statsSlot := .absent } }

theorem mapGet_mapSet_self (m : DeckMap) (k : String) (v : CardState) :
    mapGet (mapSet m k v) k = some v := by
  induction m with
  | nil => simp [mapGet, mapSet]
  | cons p rest ih =>
    obtain ⟨k1, v1⟩ := p
    by_cases h : k1 = k <;> simp [mapGet, mapSet, h, ih]

theorem mapGet_mapSet_ne (m : DeckMap) {k k2 : String} (v : CardState)
    (h : k ≠ k2) : mapGet (mapSet m k v) k2 = mapGet m k2 := by
  induction m with
  | nil => simp [mapGet, mapSet, h]
  | cons p rest ih =>
    obtain ⟨k1, v1⟩ := p
    by_cases h1 : k1 = k
    · subst h1
      simp [mapGet, mapSet, h]
    · simp only [mapSet, if_neg h1]
      by_cases h2 : k1 = k2 <;> simp [mapGet, h2, ih]

theorem mapGet_mem {m : DeckMap} {k : String} {v : CardState}
    (h : mapGet m k = some v) : (k, v) ∈ m := by
  induction m with
  | nil => simp [mapGet] at h
  | cons p rest ih =>
    obtain ⟨k1, v1⟩ := p
    by_cases h1 : k1 = k
    · subst h1
      simp [mapGet] at h
      simp [h]
    · simp only [mapGet, if_neg h1] at h
      exact List.mem_cons_of_mem _ (ih h)

theorem mem_mapSet {m : DeckMap} {k : String} {v : CardState}
    {p : String × CardState} (h : p ∈ mapSet m k v) : p ∈ m ∨ p = (k, v) := by
  induction m with
  | nil => simp [mapSet] at h; simp [h]
  | cons q rest ih =>
    obtain ⟨k1, v1⟩ := q
    by_cases h1 : k1 = k
    · simp only [mapSet, if_pos h1] at h
      rcases List.mem_cons.mp h with h | h
      · right; exact h
      · left; exact List.mem_cons_of_mem _ h
    · simp only [mapSet, if_neg h1] at h
      rcases List.mem_cons.mp h with h | h
      · left; simp [h]
      · rcases ih h with h | h
        · left; exact List.mem_cons_of_mem _ h
        · right; exact h

theorem mapGet_eq_none_iff {m : DeckMap} {k : String} :
    mapGet m k = none ↔ k ∉ m.map Prod.fst := by
  induction m with
  | nil => simp [mapGet]
  | cons p rest ih =>
    obtain ⟨k1, v1⟩ := p
    by_cases h1 : k1 = k
    · simp [mapGet, h1]
    · simp only [mapGet, if_neg h1, ih, List.map_cons, List.mem_cons]
      constructor
      · intro h hc
        rcases hc with hc | hc
        · exact h1 hc.symm
        · exact h hc
      · intro h hc
        exact h (Or.inr hc)

theorem mapSet_of_get_none {m : DeckMap} {k : String} (v : CardState)
    (h : mapGet m k = none) : mapSet m k v = m ++ [(k, v)] := by
  induction m with
  | nil => simp [mapSet]
  | cons p rest ih =>
    obtain ⟨k1, v1⟩ := p
    by_cases h1 : k1 = k
    · simp [mapGet, h1] at h
    · simp only [mapGet, if_neg h1] at h
      simp [mapSet, h1, ih h]

theorem mapGet_append_of_none {m m2 : DeckMap} {k : String}
    (h : mapGet m k = none) : mapGet (m ++ m2) k = mapGet m2 k := by
  induction m with
  | nil => simp
  | cons p rest ih =>
    obtain ⟨k1, v1⟩ := p
    by_cases h1 : k1 = k
    · simp [mapGet, h1] at h
    · simp only [mapGet, if_neg h1] at h
      simp [mapGet, h1, ih h]

theorem bootStep_eq (cl : ℤ) (cs : CardState) :
    bootStep cl cs = max cl (max cs.due (cs.lastSeen + 1)) := by
  simp only [bootStep]
  split_ifs <;> omega

theorem specBootMax_cons (cs : CardState) (l : List CardState) :
    specBootMax (cs :: l) = max (max cs.due (cs.lastSeen + 1)) (specBootMax l) := rfl

theorem specBootMax_nonneg (l : List CardState) : 0 ≤ specBootMax l := by
  induction l with
  | nil => simp [specBootMax]
  | cons cs rest ih =>
    rw [specBootMax_cons]
    omega

theorem bootClock_eq_max (l : List CardState) :
    ∀ cl : ℤ, 0 ≤ cl → bootClock cl l = max cl (specBootMax l) := by
  induction l with
  | nil =>
    intro cl h
    simp only [bootClock, List.foldl_nil, specBootMax, List.foldr_nil]
    omega
  | cons cs rest ih =>
    intro cl h
    have hstep : bootClock cl (cs :: rest) = bootClock (bootStep cl cs) rest := rfl
    rw [hstep, ih _ (by rw [bootStep_eq]; omega), bootStep_eq, specBootMax_cons]
    omega

theorem specBootMax_perm {l l2 : List CardState} (h : l.Perm l2) :
    specBootMax l = specBootMax l2 := by
  induction h with
  | nil => rfl
  | cons x _ ih => rw [specBootMax_cons, specBootMax_cons, ih]
  | swap x y l => rw [specBootMax_cons, specBootMax_cons, specBootMax_cons,
      specBootMax_cons, max_left_comm]
  | trans _ _ ih1 ih2 => exact ih1.trans ih2

theorem specBootMax_eq_zero {l : List CardState}
    (h : ∀ cs ∈ l, cs.due ≤ 0 ∧ cs.lastSeen + 1 ≤ 0) : specBootMax l = 0 := by
  induction l with
  | nil => rfl
  | cons cs rest ih =>
    have h1 := h cs (List.mem_cons_self _ _)
    have h2 := ih fun x hx => h x (List.mem_cons_of_mem _ hx)
    rw [specBootMax_cons, h2]
    omega

theorem le_jsRound {z : ℤ} {q : ℚ} (h : (z : ℚ) ≤ q + 1/2) : z ≤ jsRound q :=
  Rat.le_floor.mpr h

theorem jsRound_nonneg {q : ℚ} (h : 0 ≤ q) : 0 ≤ jsRound q :=
  le_jsRound (by push_cast; linarith)

theorem jsRound_ge_four {q : ℚ} (h : 39/10 ≤ q) : 4 ≤ jsRound q :=
  le_jsRound (by push_cast; linarith)

theorem goodCard_freshCard (c : Combo) : GoodCard (freshCard c) := by
  refine ⟨by norm_num [freshCard], by norm_num [freshCard], by norm_num [freshCard],
    ?_, ?_⟩ <;> · intro h; norm_num [freshCard] at h

theorem goodCard_updateIncorrect (c : CardState) : GoodCard (updateIncorrect c) := by
  refine ⟨le_max_left _ _, by norm_num [updateIncorrect], by norm_num [updateIncorrect],
    ?_, ?_⟩ <;> · intro h; norm_num [updateIncorrect] at h

theorem updateCorrect_repetitions (c : CardState) :
    (updateCorrect c).repetitions = c.repetitions + 1 := rfl

theorem goodCard_updateCorrect {c : CardState} (h : GoodCard c) :
    GoodCard (updateCorrect c) := by
  obtain ⟨hease, hint, hreps, h1, h2⟩ := h
  simp only [GoodCard, updateCorrect]
  split_ifs with e1 e2
  · exact ⟨le_max_left _ _, by norm_num, by omega, by norm_num, by omega⟩
  · exact ⟨le_max_left _ _, by norm_num, by omega, by norm_num, by norm_num⟩
  · have hr3 : 3 ≤ c.repetitions + 1 := by omega
    have hi3 : 3 ≤ c.interval := h2 (by omega)
    have hq3 : (3 : ℚ) ≤ (c.interval : ℚ) := by exact_mod_cast hi3
    have hprod : (39 : ℚ)/10 ≤ (c.interval : ℚ) * c.ease := by
      have := mul_le_mul hq3 hease (by norm_num) (le_trans (by norm_num) hq3)
      linarith
    have hj : 4 ≤ jsRound ((c.interval : ℚ) * c.ease) := jsRound_ge_four hprod
    exact ⟨le_max_left _ _, by omega, by omega, fun _ => by omega, fun _ => by omega⟩

theorem goodCard_answeredCard {card : CardState} (correct : Bool) (clock : ℤ)
    (h : GoodCard card) : GoodCard (answeredCard card correct clock) := by
  have hup : GoodCard (if correct then updateCorrect card else updateIncorrect card) := by
    cases correct
    · simpa using goodCard_updateIncorrect card
    · simpa using goodCard_updateCorrect h
  obtain ⟨a, b, c, d, e⟩ := hup
  exact ⟨a, b, c, d, e⟩

theorem materialize_cons (c : Combo) (rest : List Combo) (m : DeckMap) :
    materialize (c :: rest) m =
      materialize rest
        (if (mapGet m (comboKey c)).isSome then m
         else mapSet m (comboKey c) (freshCard c)) := rfl

theorem materialize_pres {k : String} {v : CardState} :
    ∀ (catalog : List Combo) (m : DeckMap), mapGet m k = some v →
      mapGet (materialize catalog m) k = some v := by
  intro catalog
  induction catalog with
  | nil => intro m h; exact h
  | cons c rest ih =>
    intro m h
    rw [materialize_cons]
    by_cases hc : (mapGet m (comboKey c)).isSome
    · rw [if_pos hc]; exact ih m h
    · rw [if_neg hc]
      apply ih
      by_cases hk : comboKey c = k
      · subst hk
        rw [h] at hc
        simp at hc
      · rw [mapGet_mapSet_ne _ _ hk]
        exact h

theorem materialize_get_of_mem :
    ∀ (catalog : List Combo) (m : DeckMap) {c : Combo}, c ∈ catalog →
      ∃ v, mapGet (materialize catalog m) (comboKey c) = some v := by
  intro catalog
  induction catalog with
  | nil => intro m c h; simp at h
  | cons c0 rest ih =>
    intro m c h
    rw [materialize_cons]
    rcases List.mem_cons.mp h with h | h
    · subst h
      by_cases hc : (mapGet m (comboKey c)).isSome
      · rw [if_pos hc]
        obtain ⟨v, hv⟩ := Option.isSome_iff_exists.mp hc
        exact ⟨v, materialize_pres rest m hv⟩
      · rw [if_neg hc]
        exact ⟨freshCard c, materialize_pres rest _ (mapGet_mapSet_self m _ _)⟩
    · by_cases hc : (mapGet m (comboKey c0)).isSome
      · rw [if_pos hc]; exact ih m h
      · rw [if_neg hc]; exact ih _ h

theorem materialize_get_shape :
    ∀ (catalog : List Combo) (m : DeckMap) {k : String} {v : CardState},
      mapGet (materialize catalog m) k = some v →
      mapGet m k = some v ∨ ∃ c ∈ catalog, comboKey c = k ∧ v = freshCard c := by
  intro catalog
  induction catalog with
  | nil => intro m k v h; exact Or.inl h
  | cons c0 rest ih =>
    intro m k v h
    rw [materialize_cons] at h
    by_cases hc : (mapGet m (comboKey c0)).isSome
    · rw [if_pos hc] at h
      rcases ih _ h with h | ⟨c, hc1, hc2, hc3⟩
      · exact Or.inl h
      · exact Or.inr ⟨c, List.mem_cons_of_mem _ hc1, hc2, hc3⟩
    · rw [if_neg hc] at h
      rcases ih _ h with h | ⟨c, hc1, hc2, hc3⟩
      · by_cases hk : comboKey c0 = k
        · subst hk
          rw [mapGet_mapSet_self] at h
          exact Or.inr ⟨c0, List.mem_cons_self _ _, rfl, (Option.some.inj h).symm⟩
        · rw [mapGet_mapSet_ne _ _ hk] at h
          exact Or.inl h
      · exact Or.inr ⟨c, List.mem_cons_of_mem _ hc1, hc2, hc3⟩

theorem mem_values_mapSet {m : DeckMap} {k : String} {v cs : CardState}
    (h : cs ∈ values (mapSet m k v)) : cs ∈ values m ∨ cs = v := by
  obtain ⟨p, hp, hps⟩ := List.mem_map.mp h
  rcases mem_mapSet hp with hp | hp
  · exact Or.inl (List.mem_map.mpr ⟨p, hp, hps⟩)
  · subst hp
    exact Or.inr hps.symm

theorem values_materialize_shape :
    ∀ (catalog : List Combo) (m : DeckMap) {cs : CardState},
      cs ∈ values (materialize catalog m) →
      cs ∈ values m ∨ ∃ c ∈ catalog, cs = freshCard c := by
  intro catalog
  induction catalog with
  | nil => intro m cs h; exact Or.inl h
  | cons c0 rest ih =>
    intro m cs h
    rw [materialize_cons] at h
    by_cases hc : (mapGet m (comboKey c0)).isSome
    · rw [if_pos hc] at h
      rcases ih _ h with h | ⟨c, hc1, hc2⟩
      · exact Or.inl h
      · exact Or.inr ⟨c, List.mem_cons_of_mem _ hc1, hc2⟩
    · rw [if_neg hc] at h
      rcases ih _ h with h | ⟨c, hc1, hc2⟩
      · rcases mem_values_mapSet h with h | h
        · exact Or.inl h
        · exact Or.inr ⟨c0, List.mem_cons_self _ _, h⟩
      · exact Or.inr ⟨c, List.mem_cons_of_mem _ hc1, hc2⟩

theorem keys_mapSet_of_isSome {m : DeckMap} {k : String} (v : CardState)
    (h : (mapGet m k).isSome) :
    (mapSet m k v).map Prod.fst = m.map Prod.fst := by
  induction m with
  | nil => simp [mapGet] at h
  | cons p rest ih =>
    obtain ⟨k1, v1⟩ := p
    by_cases h1 : k1 = k
    · subst h1
      simp [mapSet]
    · simp only [mapGet, if_neg h1] at h
      simp [mapSet, h1, ih h]

theorem nodupKeys_mapSet {m : DeckMap} {k : String} (v : CardState)
    (h : NodupKeys m) : NodupKeys (mapSet m k v) := by
  rcases hx : mapGet m k with _ | v0
  · unfold NodupKeys
    rw [mapSet_of_get_none v hx]
    simp only [List.map_append, List.map_cons, List.map_nil]
    rw [List.nodup_append]
    refine ⟨h, List.nodup_singleton _, ?_⟩
    intro a ha hb
    simp only [List.mem_singleton] at hb
    subst hb
    exact (mapGet_eq_none_iff.mp hx) ha
  · unfold NodupKeys
    rw [keys_mapSet_of_isSome v (by simp [hx])]
    exact h

theorem nodupKeys_materialize :
    ∀ (catalog : List Combo) (m : DeckMap), NodupKeys m →
      NodupKeys (materialize catalog m) := by
  intro catalog
  induction catalog with
  | nil => intro m h; exact h
  | cons c0 rest ih =>
    intro m h
    rw [materialize_cons]
    by_cases hc : (mapGet m (comboKey c0)).isSome
    · rw [if_pos hc]; exact ih m h
    · rw [if_neg hc]; exact ih _ (nodupKeys_mapSet _ h)

theorem rebuild_eq :
    ∀ (d m : DeckMap), WellKeyed d → (∀ p ∈ d, mapGet m p.1 = none) →
      NodupKeys d →
      (values d).foldl (fun acc cs => mapSet acc (cardKey cs) cs) m = m ++ d := by
  intro d
  induction d with
  | nil =>
    intro m _ _ _
    simp [values]
  | cons p rest ih =>
    intro m hwk hnone hnd
    obtain ⟨k, c⟩ := p
    have hkey : cardKey c = k := hwk (k, c) (List.mem_cons_self _ _)
    have hknotin : k ∉ rest.map Prod.fst := by
      have := hnd
      unfold NodupKeys at this
      simp only [List.map_cons] at this
      exact (List.nodup_cons.mp this).1
    have hfirst : mapSet m (cardKey c) c = m ++ [(k, c)] := by
      rw [hkey]
      exact mapSet_of_get_none _ (hnone (k, c) (List.mem_cons_self _ _))
    have hvalues : values ((k, c) :: rest) = c :: values rest := rfl
    rw [hvalues, List.foldl_cons, hfirst,
      ih (m ++ [(k, c)]) (fun p hp => hwk p (List.mem_cons_of_mem _ hp)) ?_ ?_]
    · rw [List.append_assoc]
      rfl
    · intro p hp
      have h1 : mapGet m p.1 = none := hnone p (List.mem_cons_of_mem _ hp)
      have h2 : k ≠ p.1 := by
        intro he
        exact hknotin (he ▸ List.mem_map.mpr ⟨p, hp, rfl⟩)
      rw [mapGet_append_of_none h1]
      simp [mapGet, h2]
    · have := hnd
      unfold NodupKeys at this ⊢
      simp only [List.map_cons] at this
      exact (List.nodup_cons.mp this).2

theorem ensureDeck_loaded (catalog : List Combo) {e : Engine} {d : DeckMap}
    (h : e.deck = some d) : ensureDeck catalog e = (d, e) := by
  simp [ensureDeck, h]

theorem ensureDeck_unloaded {catalog : List Combo} {e : Engine}
    (h : e.deck = none) :
    ensureDeck catalog e =
      (materialize catalog (loadDeck e.storage.deckSlot),
       { e with
         deck := some (materialize catalog (loadDeck e.storage.deckSlot))
         clock := bootClock e.clock
           (values (materialize catalog (loadDeck e.storage.deckSlot))) }) := by
  simp [ensureDeck, h]

theorem recordAnswer_loaded (catalog : List Combo) {e : Engine} {d : DeckMap}
    {card : CardState} (hand position : String) (correct : Bool) {s : Stats}
    (hdeck : e.deck = some d)
    (hget : mapGet d (hand ++ "|" ++ position) = some card)
    (hstats : loadStats e.storage.statsSlot = .ok s) :
    recordAnswer catalog e hand position correct =
      some { deck := some (mapSet d (hand ++ "|" ++ position)
                            (answeredCard card correct (e.clock + 1)))
             clock := e.clock + 1
             storage :=
               { deckSlot := saveDeck (mapSet d (hand ++ "|" ++ position)
                              (answeredCard card correct (e.clock + 1)))
                 statsSlot := saveStats (updateStats s correct) } } := by
  simp only [recordAnswer, ensureDeck_loaded catalog hdeck, hget, hstats]

theorem recordAnswer_missing (catalog : List Combo) {e : Engine} {d : DeckMap}
    (hand position : String) (correct : Bool)
    (hdeck : e.deck = some d)
    (hget : mapGet d (hand ++ "|" ++ position) = none) :
    recordAnswer catalog e hand position correct = some e := by
  simp only [recordAnswer, ensureDeck_loaded catalog hdeck, hget]

theorem recordAnswer_ensured {catalog : List Combo} {e e1 : Engine}
    {hand position : String} {correct : Bool}
    (h : recordAnswer catalog e hand position correct = some e1) :
    (mapGet (ensureDeck catalog e).1 (hand ++ "|" ++ position) = none ∧
      e1 = (ensureDeck catalog e).2) ∨
    (∃ card s,
      mapGet (ensureDeck catalog e).1 (hand ++ "|" ++ position) = some card ∧
      loadStats (ensureDeck catalog e).2.storage.statsSlot = StatsJson.ok s ∧
      e1 = { deck := some (mapSet (ensureDeck catalog e).1 (hand ++ "|" ++ position)
                      (answeredCard card correct ((ensureDeck catalog e).2.clock + 1)))
             clock := (ensureDeck catalog e).2.clock + 1
             storage :=
               { deckSlot := saveDeck (mapSet (ensureDeck catalog e).1
                               (hand ++ "|" ++ position)
                               (answeredCard card correct
                                 ((ensureDeck catalog e).2.clock + 1)))
                 statsSlot := saveStats (updateStats s correct) } }) := by
  rcases hed : ensureDeck catalog e with ⟨d, e2⟩
  simp only [hed]
  simp only [recordAnswer, hed] at h
  rcases hg : mapGet d (hand ++ "|" ++ position) with _ | card
  · left
    simp only [hg] at h
    exact ⟨rfl, (Option.some.inj h).symm⟩
  · right
    simp only [hg] at h
    rcases hs : loadStats e2.storage.statsSlot with s | _
    · simp only [hs] at h
      exact ⟨card, s, rfl, rfl, (Option.some.inj h).symm⟩
    · simp only [hs] at h
      exact absurd h (by simp)

theorem ensureDeck_deck_eq (catalog : List Combo) (e : Engine) :
    (ensureDeck catalog e).2.deck = some (ensureDeck catalog e).1 := by
  rcases hd : e.deck with _ | d0
  · simp [ensureDeck_unloaded hd]
  · simp [ensureDeck_loaded catalog hd, hd]

theorem reachable_good {catalog : List Combo} {e : Engine}
    (h : Reachable catalog e) :
    (e.deck = none → e.storage.deckSlot = DeckStored.absent) ∧
    (∀ d, e.deck = some d → ∀ p ∈ d, GoodCard p.2) := by
  induction h with
  | init =>
    refine ⟨fun _ => rfl, fun d hd p hp => ?_⟩
    simp [freshEngine, initial] at hd
  | @record e0 e1 hand position correct hre hrec ih =>
    obtain ⟨ih1, ih2⟩ := ih
    have hgood : ∀ p ∈ (ensureDeck catalog e0).1, GoodCard p.2 := by
      rcases hd : e0.deck with _ | d0
      · intro p hp
        simp only [ensureDeck_unloaded hd] at hp
        have hv : p.2 ∈ values (materialize catalog (loadDeck e0.storage.deckSlot)) :=
          List.mem_map.mpr ⟨p, hp, rfl⟩
        rcases values_materialize_shape catalog _ hv with hmem | ⟨c, _, hfc⟩
        · rw [ih1 hd] at hmem
          simp [loadDeck, values] at hmem
        · rw [hfc]
          exact goodCard_freshCard c
      · intro p hp
        simp only [ensureDeck_loaded catalog hd] at hp
        exact ih2 d0 hd p hp
    rcases recordAnswer_ensured hrec with ⟨hnone, he1⟩ | ⟨card, s, hcard, hs, he1⟩
    · subst he1
      refine ⟨fun hn => ?_, fun d hd p hp => ?_⟩
      · exact Option.noConfusion ((ensureDeck_deck_eq catalog e0).symm.trans hn)
      · have hd2 : (ensureDeck catalog e0).1 = d :=
          Option.some.inj ((ensureDeck_deck_eq catalog e0).symm.trans hd)
        exact hgood p (hd2 ▸ hp)
    · subst he1
      refine ⟨fun hn => ?_, fun d hd p hp => ?_⟩
      · exact Option.noConfusion hn
      · have hd2 := Option.some.inj hd
        rw [← hd2] at hp
        rcases mem_mapSet hp with hp | hp
        · exact hgood p hp
        · have hcg : GoodCard card := hgood _ (mapGet_mem hcard)
          rw [hp]
          exact goodCard_answeredCard correct _ hcg

theorem slackPool_spec {l : List CardState} (hne : l ≠ []) :
    ∃ hd, hd ∈ l ∧ (∀ x ∈ l, hd.due ≤ x.due) ∧ hd ∈ slackPool l ∧
      ∀ c ∈ slackPool l, c ∈ l ∧ c.due ≤ hd.due + 2 := by
  have hperm : (List.insertionSort dueOrder l).Perm l := List.perm_insertionSort _ _
  have hsorted : List.Sorted dueOrder (List.insertionSort dueOrder l) :=
    List.sorted_insertionSort _ _
  rcases hsl : List.insertionSort dueOrder l with _ | ⟨hd, tl⟩
  · rw [hsl] at hperm
    exact absurd hperm.symm.eq_nil hne
  · rw [hsl] at hperm hsorted
    have hsp : slackPool l = (hd :: tl).filter (fun c => c.due ≤ hd.due + 2) := by
      simp only [slackPool, hsl, List.headD_cons]
    have htl := List.rel_of_sorted_cons hsorted
    refine ⟨hd, hperm.mem_iff.mp (List.mem_cons_self _ _), ?_, ?_, ?_⟩
    · intro x hx
      rcases List.mem_cons.mp (hperm.mem_iff.mpr hx) with hx | hx
      · rw [hx]
      · exact htl x hx
    · rw [hsp]
      refine List.mem_filter.mpr ⟨List.mem_cons_self _ _, by simp⟩
    · intro c hc
      rw [hsp] at hc
      obtain ⟨hcmem, hcdue⟩ := List.mem_filter.mp hc
      exact ⟨hperm.mem_iff.mp hcmem, by simpa using hcdue⟩

theorem get_mod_of_ne_nil {l : List CardState} (rand : ℕ) (hne : l ≠ []) :
    ∃ c, l.get? (rand % l.length) = some c ∧ c ∈ l := by
  have hlen : 0 < l.length := List.length_pos.mpr hne
  have hlt : rand % l.length < l.length := Nat.mod_lt _ hlen
  exact ⟨l.get ⟨rand % l.length, hlt⟩, List.get?_eq_get hlt, List.get_mem _ _ _⟩

theorem getNextCard_loaded_due {catalog : List Combo} {e : Engine} {d : DeckMap}
    (rand : ℕ) (hdeck : e.deck = some d)
    (hlen : 0 < ((values d).filter (fun c => c.due ≤ e.clock)).length) :
    (getNextCard catalog e rand).1 =
      (slackPool ((values d).filter (fun c => c.due ≤ e.clock))).get?
        (rand % (slackPool ((values d).filter (fun c => c.due ≤ e.clock))).length) := by
  simp only [getNextCard, ensureDeck_loaded catalog hdeck]
  rw [if_pos hlen]

theorem answeredCard_correct_reps (card : CardState) (clock : ℤ) :
    (answeredCard card true clock).repetitions = card.repetitions + 1 := by
  simp [answeredCard, updateCorrect]

theorem answeredCard_correct_ease (card : CardState) (clock : ℤ) :
    (answeredCard card true clock).ease = max (13/10) (card.ease + 1/10) := by
  simp [answeredCard, updateCorrect]

theorem answeredCard_correct_interval1 {card : CardState} (h : card.repetitions = 0)
    (clock : ℤ) : (answeredCard card true clock).interval = 1 := by
  simp [answeredCard, updateCorrect, h]

theorem answeredCard_correct_interval2 {card : CardState} (h : card.repetitions = 1)
    (clock : ℤ) : (answeredCard card true clock).interval = 3 := by
  simp [answeredCard, updateCorrect, h]

theorem answeredCard_correct_interval3 {card : CardState} (h : 2 ≤ card.repetitions)
    (clock : ℤ) :
    (answeredCard card true clock).interval =
      jsRound ((card.interval : ℚ) * card.ease) := by
  have h1 : ¬ (card.repetitions + 1 = 1) := by omega
  have h2 : ¬ (card.repetitions + 1 = 2) := by omega
  simp [answeredCard, updateCorrect, h1, h2]

theorem answeredCard_due (card : CardState) (correct : Bool) (clock : ℤ) :
    (answeredCard card correct clock).due =
      clock + (answeredCard card correct clock).interval ∧
    (answeredCard card correct clock).lastSeen = clock := by
  cases correct <;> simp [answeredCard, updateCorrect, updateIncorrect]

theorem answeredCard_incorrect_fields (card : CardState) (clock : ℤ) :
    (answeredCard card false clock).repetitions = 0 ∧
    (answeredCard card false clock).interval = 0 ∧
    (answeredCard card false clock).ease = max (13/10) (card.ease - 3/10) ∧
    (answeredCard card false clock).due = clock ∧
    (answeredCard card false clock).lastSeen = clock := by
  simp [answeredCard, updateIncorrect]

theorem max_ease_step {q r : ℚ} (h : 13/10 ≤ q) (he : q + 1/10 = r) :
    max (13/10) (q + 1/10) = r := by
  rw [max_eq_right (by linarith)]
  exact he

/-- C5: recordAnswer on an identity with no matching deck entry is a
complete no-op: with the deck loaded it returns exactly the unchanged
engine, so the logical clock, the in-memory deck, and both durable blobs
(per-card state and stats) are untouched, and no error is raised. -/
theorem unknown_identity_noop (catalog : List Combo) (e : Engine) (d : DeckMap)
    (hand position : String) (correct : Bool) (hdeck : e.deck = some d)
    (hget : mapGet d (hand ++ "|" ++ position) = none) :
    recordAnswer catalog e hand position correct = some e :=
  recordAnswer_missing catalog hand position correct hdeck hget

/-- C5 witness: a concrete loaded engine and an identity outside its deck. -/
theorem unknown_identity_noop_witness :
    recordAnswer [] exampleEngine "ZZ" "noSuchPos" true = some exampleEngine :=
  unknown_identity_noop [] exampleEngine _ "ZZ" "noSuchPos" true rfl (by decide)

/-- C3: an incorrect answer on a present identity resets repetitions to 0
and interval to 0, applies the ease penalty with floor 1.3, and leaves the
card immediately due: its due equals the post-increment clock, and so does
lastSeen. -/
theorem incorrect_answer_resets (catalog : List Combo) (e : Engine)
    (d : DeckMap) (card : CardState) (hand position : String) (s : Stats)
    (hdeck : e.deck = some d)
    (hget : mapGet d (hand ++ "|" ++ position) = some card)
    (hstats : loadStats e.storage.statsSlot = .ok s) :
    ∃ e1 d1 c1, recordAnswer catalog e hand position false = some e1 ∧
      e1.deck = some d1 ∧ mapGet d1 (hand ++ "|" ++ position) = some c1 ∧
      c1.repetitions = 0 ∧ c1.interval = 0 ∧
      c1.ease = max (13/10) (card.ease - 3/10) ∧
      e1.clock = e.clock + 1 ∧ c1.due = e1.clock ∧ c1.lastSeen = e1.clock := by
  obtain ⟨f1, f2, f3, f4, f5⟩ := answeredCard_incorrect_fields card (e.clock + 1)
  exact ⟨_, _, _, recordAnswer_loaded catalog hand position false hdeck hget hstats,
    rfl, mapGet_mapSet_self _ _ _, f1, f2, f3, rfl, f4, f5⟩

/-- C3 witness: an incorrect answer at a concrete loaded engine. -/
theorem incorrect_answer_resets_witness :
    ∃ e1 d1 c1, recordAnswer [] exampleEngine "a" "P" false = some e1 ∧
      e1.deck = some d1 ∧ mapGet d1 ("a" ++ "|" ++ "P") = some c1 ∧
      c1.repetitions = 0 ∧ c1.interval = 0 ∧
      c1.ease = max (13/10) ((exampleCard "a" 5).ease - 3/10) ∧
      e1.clock = exampleEngine.clock + 1 ∧ c1.due = e1.clock ∧
      c1.lastSeen = e1.clock :=
  incorrect_answer_resets [] exampleEngine _ (exampleCard "a" 5) "a" "P"
    defaultStats rfl rfl rfl

/-- C4: for a present card whose ease is at least 1.3 before the call,
recordAnswer keeps the ease at or above the 1.3 floor in both branches, and
a correct answer increases the ease by exactly 0.1 with no upper cap. -/
theorem ease_floor_and_growth (catalog : List Combo) (e : Engine)
    (d : DeckMap) (card : CardState) (hand position : String) (correct : Bool)
    (s : Stats) (hdeck : e.deck = some d)
    (hget : mapGet d (hand ++ "|" ++ position) = some card)
    (hstats : loadStats e.storage.statsSlot = .ok s)
    (hease : 13/10 ≤ card.ease) :
    ∃ e1 d1 c1, recordAnswer catalog e hand position correct = some e1 ∧
      e1.deck = some d1 ∧ mapGet d1 (hand ++ "|" ++ position) = some c1 ∧
      13/10 ≤ c1.ease ∧ (correct = true → c1.ease = card.ease + 1/10) := by
  refine ⟨_, _, _, recordAnswer_loaded catalog hand position correct hdeck hget hstats,
    rfl, mapGet_mapSet_self _ _ _, ?_, ?_⟩
  · cases correct
    · rcases answeredCard_incorrect_fields card (e.clock + 1) with ⟨_, _, f3, _, _⟩
      rw [f3]
      exact le_max_left _ _
    · rw [answeredCard_correct_ease]
      exact le_max_left _ _
  · intro hc
    subst hc
    rw [answeredCard_correct_ease]
    exact max_ease_step hease rfl

/-- C4 witness: a correct answer at a concrete loaded engine with ease 2.5. -/
theorem ease_floor_and_growth_witness :
    ∃ e1 d1 c1, recordAnswer [] exampleEngine "a" "P" true = some e1 ∧
      e1.deck = some d1 ∧ mapGet d1 ("a" ++ "|" ++ "P") = some c1 ∧
      13/10 ≤ c1.ease ∧
      (true = true → c1.ease = (exampleCard "a" 5).ease + 1/10) :=
  ease_floor_and_growth [] exampleEngine _ (exampleCard "a" 5) "a" "P" true
    defaultStats rfl rfl rfl (by norm_num [exampleCard])

/-- C1: starting from repetitions 0 and ease 2.5, three consecutive correct
answers on the same present identity set the interval to exactly 1, then 3,
then round(3 * 2.7) = 8, where each correct answer adds exactly 0.1 to the
ease (2.6, 2.7, 2.8) and the third interval is computed from the pre-update
interval 3 times the pre-update ease 2.7. -/
theorem update_rule_three_correct (catalog : List Combo) (e : Engine)
    (d : DeckMap) (card : CardState) (hand position : String) (s : Stats)
    (hdeck : e.deck = some d)
    (hget : mapGet d (hand ++ "|" ++ position) = some card)
    (hstats : loadStats e.storage.statsSlot = .ok s)
    (hreps : card.repetitions = 0) (hease : card.ease = 5/2) :
    ∃ e1 e2 e3 d1 d2 d3 c1 c2 c3,
      recordAnswer catalog e hand position true = some e1 ∧
      e1.deck = some d1 ∧ mapGet d1 (hand ++ "|" ++ position) = some c1 ∧
      recordAnswer catalog e1 hand position true = some e2 ∧
      e2.deck = some d2 ∧ mapGet d2 (hand ++ "|" ++ position) = some c2 ∧
      recordAnswer catalog e2 hand position true = some e3 ∧
      e3.deck = some d3 ∧ mapGet d3 (hand ++ "|" ++ position) = some c3 ∧
      c1.interval = 1 ∧ c1.ease = 26/10 ∧
      c2.interval = 3 ∧ c2.ease = 27/10 ∧
      c3.interval = jsRound ((c2.interval : ℚ) * c2.ease) ∧
      c3.interval = 8 ∧ c3.ease = 28/10 := by
  have f1int := answeredCard_correct_interval1 hreps (e.clock + 1)
  have f1ease : (answeredCard card true (e.clock + 1)).ease = 26/10 := by
    rw [answeredCard_correct_ease, hease]
    exact max_ease_step (by norm_num) (by norm_num)
  have f1reps : (answeredCard card true (e.clock + 1)).repetitions = 1 := by
    rw [answeredCard_correct_reps, hreps]
    norm_num
  have f2int := answeredCard_correct_interval2 f1reps (e.clock + 1 + 1)
  have f2ease : (answeredCard (answeredCard card true (e.clock + 1)) true
      (e.clock + 1 + 1)).ease = 27/10 := by
    rw [answeredCard_correct_ease, f1ease]
    exact max_ease_step (by norm_num) (by norm_num)
  have f2reps : (answeredCard (answeredCard card true (e.clock + 1)) true
      (e.clock + 1 + 1)).repetitions = 2 := by
    rw [answeredCard_correct_reps, f1reps]
    norm_num
  have f3int := answeredCard_correct_interval3 (le_of_eq f2reps.symm)
    (e.clock + 1 + 1 + 1)
  have f3int8 : (answeredCard (answeredCard (answeredCard card true (e.clock + 1))
      true (e.clock + 1 + 1)) true (e.clock + 1 + 1 + 1)).interval = 8 := by
    rw [f3int, f2int, f2ease]
    norm_num [jsRound, Rat.floor_def']
  have f3ease : (answeredCard (answeredCard (answeredCard card true (e.clock + 1))
      true (e.clock + 1 + 1)) true (e.clock + 1 + 1 + 1)).ease = 28/10 := by
    rw [answeredCard_correct_ease, f2ease]
    exact max_ease_step (by norm_num) (by norm_num)
  refine ⟨_, _, _, _, _, _, _, _, _,
    recordAnswer_loaded catalog hand position true hdeck hget hstats,
    rfl, mapGet_mapSet_self _ _ _,
    recordAnswer_loaded catalog hand position true rfl (mapGet_mapSet_self _ _ _) rfl,
    rfl, mapGet_mapSet_self _ _ _,
    recordAnswer_loaded catalog hand position true rfl (mapGet_mapSet_self _ _ _) rfl,
    rfl, mapGet_mapSet_self _ _ _,
    f1int, f1ease, f2int, f2ease, ?_, ?_, f3ease⟩
  · rw [f3int, f2int, f2ease]
  · exact f3int8

/-- C1 witness: three correct answers at a concrete loaded engine whose
card starts with repetitions 0 and ease 2.5. -/
theorem update_rule_three_correct_witness :
    ∃ e1 e2 e3 d1 d2 d3 c1 c2 c3,
      recordAnswer [] exampleEngine "a" "P" true = some e1 ∧
      e1.deck = some d1 ∧ mapGet d1 ("a" ++ "|" ++ "P") = some c1 ∧
      recordAnswer [] e1 "a" "P" true = some e2 ∧
      e2.deck = some d2 ∧ mapGet d2 ("a" ++ "|" ++ "P") = some c2 ∧
      recordAnswer [] e2 "a" "P" true = some e3 ∧
      e3.deck = some d3 ∧ mapGet d3 ("a" ++ "|" ++ "P") = some c3 ∧
      c1.interval = 1 ∧ c1.ease = 26/10 ∧
      c2.interval = 3 ∧ c2.ease = 27/10 ∧
      c3.interval = jsRound ((c2.interval : ℚ) * c2.ease) ∧
      c3.interval = 8 ∧ c3.ease = 28/10 :=
  update_rule_three_correct [] exampleEngine _ (exampleCard "a" 5) "a" "P"
    defaultStats rfl rfl rfl rfl rfl

/-- C2: whenever some loaded entry is due (due at most the clock),
getNextCard returns, for every random draw, a due entry whose due is within
minDue + 2 of the smallest due among due entries; in particular, on the
example deck with dues 5, 5, 6, 9 and clock 7, the entry with due 9 is
never returned. -/
theorem getNextCard_respects_due_window :
    (∀ (catalog : List Combo) (e : Engine) (d : DeckMap) (rand : ℕ),
      e.deck = some d → (∃ c0 ∈ values d, c0.due ≤ e.clock) →
      ∃ c, (getNextCard catalog e rand).1 = some c ∧ c.due ≤ e.clock ∧
        ∃ minDue,
          minDue ∈ ((values d).filter (fun x => x.due ≤ e.clock)).map
            (fun x => x.due) ∧
          (∀ x ∈ (values d).filter (fun x => x.due ≤ e.clock), minDue ≤ x.due) ∧
          c.due ≤ minDue + 2) ∧
    (∀ rand : ℕ, ∀ c, (getNextCard [] exampleEngine rand).1 = some c →
      c.due ≠ 9) := by
  have main : ∀ (catalog : List Combo) (e : Engine) (d : DeckMap) (rand : ℕ),
      e.deck = some d → (∃ c0 ∈ values d, c0.due ≤ e.clock) →
      ∃ c, (getNextCard catalog e rand).1 = some c ∧ c.due ≤ e.clock ∧
        ∃ minDue,
          minDue ∈ ((values d).filter (fun x => x.due ≤ e.clock)).map
            (fun x => x.due) ∧
          (∀ x ∈ (values d).filter (fun x => x.due ≤ e.clock), minDue ≤ x.due) ∧
          c.due ≤ minDue + 2 := by
    intro catalog e d rand hdeck hdue
    obtain ⟨c0, hc0mem, hc0due⟩ := hdue
    have hc0 : c0 ∈ (values d).filter (fun x : CardState => decide (x.due ≤ e.clock)) :=
      List.mem_filter.mpr ⟨hc0mem, by simpa using hc0due⟩
    have hne : (values d).filter (fun x : CardState => decide (x.due ≤ e.clock)) ≠ [] :=
      List.ne_nil_of_mem hc0
    have hlen : 0 <
        ((values d).filter (fun x : CardState => decide (x.due ≤ e.clock))).length :=
      List.length_pos.mpr hne
    obtain ⟨hd, hdmem, hdmin, hdpool, hpool⟩ := slackPool_spec hne
    have hpne :
        slackPool ((values d).filter fun x : CardState => decide (x.due ≤ e.clock)) ≠ [] :=
      List.ne_nil_of_mem hdpool
    obtain ⟨c, hcget, hcmem⟩ := get_mod_of_ne_nil rand hpne
    obtain ⟨hcl, hcslack⟩ := hpool c hcmem
    refine ⟨c, ?_, of_decide_eq_true (List.mem_filter.mp hcl).2, hd.due,
      List.mem_map.mpr ⟨hd, hdmem, rfl⟩, hdmin, hcslack⟩
    rw [getNextCard_loaded_due rand hdeck hlen]
    exact hcget
  refine ⟨main, ?_⟩
  intro rand c hc
  obtain ⟨c2, hc2, hc2due, _⟩ := main [] exampleEngine _ rand rfl
    ⟨exampleCard "a" 5, by simp [values, exampleEngine],
      by norm_num [exampleCard, exampleEngine]⟩
  rw [hc] at hc2
  have hcc := Option.some.inj hc2
  subst hcc
  intro h9
  rw [h9] at hc2due
  norm_num [exampleEngine] at hc2due

/-- C2 witness: a concrete draw on the example deck returns a due entry. -/
theorem getNextCard_respects_due_window_witness :
    ∃ c, (getNextCard [] exampleEngine 0).1 = some c ∧
      c.due ≤ exampleEngine.clock := by
  obtain ⟨c, h1, h2, _⟩ := getNextCard_respects_due_window.1 [] exampleEngine _ 0 rfl
    ⟨exampleCard "a" 5, by simp [values, exampleEngine],
      by norm_num [exampleCard, exampleEngine]⟩
  exact ⟨c, h1, h2⟩

/-- C6: after a (re)load of the real catalog starting from clock 0,
ensureDeck leaves the clock at the maximum over all materialized deck
entries of max (due, lastSeen + 1) with default 0 for an empty or fresh
deck, and this quantity does not depend on the iteration order over the
entries. -/
theorem clock_bootstrap_max (e : Engine)
    (hdeck : e.deck = none) (hclock : e.clock = 0) :
    (ensureDeck getAllCombos e).2.clock =
      specBootMax (values (ensureDeck getAllCombos e).1) ∧
    ∀ l, l.Perm (values (ensureDeck getAllCombos e).1) →
      specBootMax l = specBootMax (values (ensureDeck getAllCombos e).1) := by
  refine ⟨?_, fun l hl => specBootMax_perm hl⟩
  simp only [ensureDeck_unloaded hdeck]
  rw [hclock, bootClock_eq_max _ 0 le_rfl]
  have := specBootMax_nonneg
    (values (materialize getAllCombos (loadDeck e.storage.deckSlot)))
  omega

/-- C6 witness: a reloaded engine whose stored deck holds one card. -/
theorem clock_bootstrap_max_witness :
    (ensureDeck getAllCombos
        (initial { deckSlot := DeckStored.parsedArray [exampleCard "a" 5]
                   statsSlot := .absent })).2.clock =
      specBootMax (values (ensureDeck getAllCombos
        (initial { deckSlot := DeckStored.parsedArray [exampleCard "a" 5]
                   statsSlot := .absent })).1) ∧
    ∀ l, l.Perm (values (ensureDeck getAllCombos
        (initial { deckSlot := DeckStored.parsedArray [exampleCard "a" 5]
                   statsSlot := .absent })).1) →
      specBootMax l = specBootMax (values (ensureDeck getAllCombos
        (initial { deckSlot := DeckStored.parsedArray [exampleCard "a" 5]
                   statsSlot := .absent })).1) :=
  clock_bootstrap_max _ rfl rfl

theorem comboKey_inj_getAllCombos :
    ∀ c1 ∈ getAllCombos, ∀ c2 ∈ getAllCombos,
      comboKey c1 = comboKey c2 → c1 = c2 := by
  decide

/-- C7: resetProgress (clearing both durable blobs) followed by reloadDeck
makes the next ensureDeck produce a deck in which every identity of the
real catalog has exactly one CardState, with the default fields of
freshCard (interval 0, ease 2.5, repetitions 0, due 0, lastSeen -1); the
logical clock is 0 and getStats returns all-zero stats. -/
theorem reset_reload_fresh (e : Engine) :
    (∀ c ∈ getAllCombos,
      mapGet (ensureDeck getAllCombos (reloadDeck (resetProgress e))).1 (comboKey c) =
        some (freshCard c)) ∧
    NodupKeys (ensureDeck getAllCombos (reloadDeck (resetProgress e))).1 ∧
    (∀ cs ∈ values (ensureDeck getAllCombos (reloadDeck (resetProgress e))).1,
      ∃ c ∈ getAllCombos, cs = freshCard c) ∧
    (ensureDeck getAllCombos (reloadDeck (resetProgress e))).2.clock = 0 ∧
    getStats (ensureDeck getAllCombos (reloadDeck (resetProgress e))).2 =
      .ok defaultStats := by
  have key : ensureDeck getAllCombos (reloadDeck (resetProgress e)) =
      (materialize getAllCombos [],
       { deck := some (materialize getAllCombos [])
         clock := bootClock 0 (values (materialize getAllCombos []))
         storage := { deckSlot := .absent, statsSlot := .absent } }) := by
    rw [ensureDeck_unloaded rfl]
    rfl
  rw [key]
  have hshape : ∀ cs ∈ values (materialize getAllCombos []),
      ∃ c ∈ getAllCombos, cs = freshCard c := by
    intro cs hcs
    rcases values_materialize_shape getAllCombos [] hcs with h | h
    · simp [values] at h
    · exact h
  refine ⟨?_, ?_, hshape, ?_, rfl⟩
  · intro c hc
    obtain ⟨v, hv⟩ := materialize_get_of_mem getAllCombos [] hc
    rcases materialize_get_shape getAllCombos [] hv with h | ⟨c1, hc1, hc2, hc3⟩
    · simp [mapGet] at h
    · rw [hv, hc3, comboKey_inj_getAllCombos c1 hc1 c hc hc2]
  · exact nodupKeys_materialize getAllCombos [] (by simp [NodupKeys])
  · rw [bootClock_eq_max _ 0 le_rfl, specBootMax_eq_zero ?_]
    · norm_num
    · intro cs hcs
      obtain ⟨c, _, hfc⟩ := hshape cs hcs
      rw [hfc]
      norm_num [freshCard]

/-- C8: serialization round-trips are exact: for any well-keyed deck with
distinct keys, loadDeck after saveDeck reproduces the deck with the
identity-to-CardState mapping unchanged and every field, the rational ease
included, preserved; loadStats after saveStats returns exactly the saved
record. -/
theorem storage_roundtrip (d : DeckMap) (s : Stats)
    (hwk : WellKeyed d) (hnd : NodupKeys d) :
    loadDeck (saveDeck d) = d ∧ loadStats (saveStats s) = .ok s := by
  refine ⟨?_, rfl⟩
  have h := rebuild_eq d [] hwk (fun p _ => rfl) hnd
  simpa [loadDeck, saveDeck] using h

/-- C8 witness: round-trip of a concrete four-card deck and a concrete
stats record. -/
theorem storage_roundtrip_witness :
    loadDeck (saveDeck [(cardKey (exampleCard "a" 5), exampleCard "a" 5),
      (cardKey (exampleCard "b" 5), exampleCard "b" 5)]) =
      [(cardKey (exampleCard "a" 5), exampleCard "a" 5),
       (cardKey (exampleCard "b" 5), exampleCard "b" 5)] ∧
    loadStats (saveStats { totalReviews := 7
                           correctReviews := 5
                           currentStreak := 2
                           bestStreak := 4 }) =
      .ok { totalReviews := 7
            correctReviews := 5
            currentStreak := 2
            bestStreak := 4 } :=
  storage_roundtrip _ _ (by unfold WellKeyed; decide) (by unfold NodupKeys; decide)

/-- C9 counterexample: durable content that parses but is not a Stats
record (for example the stored text 0) is returned as parsed by loadStats,
not replaced by the all-zero defaults, refuting the claim that every
malformed content falls back to the defaults. -/
theorem loadStats_malformed_not_default :
    loadStats (StatsStored.parsed StatsJson.other) ≠ StatsJson.ok defaultStats := by
  simp [loadStats]

/-- C9 amended: loadDeck and loadStats are total, no parse or iteration
error reaches the caller; absent and unparseable content falls back to the
defaults (empty deck, all-zero stats), as does deck content whose parse is
not iterable; but successfully parsed content is trusted as-is: loadStats
returns the parsed value unvalidated and loadDeck re-keys whatever array it
parsed. -/
theorem load_fallback_behavior :
    loadStats StatsStored.absent = .ok defaultStats ∧
    loadStats StatsStored.unparseable = .ok defaultStats ∧
    (∀ j, loadStats (StatsStored.parsed j) = j) ∧
    loadDeck DeckStored.absent = [] ∧
    loadDeck DeckStored.unparseable = [] ∧
    loadDeck DeckStored.parsedNonArray = [] ∧
    (∀ arr, loadDeck (DeckStored.parsedArray arr) =
      arr.foldl (fun m cs => mapSet m (cardKey cs) cs) []) :=
  ⟨rfl, rfl, fun _ => rfl, rfl, rfl, rfl, fun _ => rfl⟩

theorem ensured_good {catalog : List Combo} {e : Engine}
    (hre : Reachable catalog e) :
    ∀ p ∈ (ensureDeck catalog e).1, GoodCard p.2 := by
  obtain ⟨ih1, ih2⟩ := reachable_good hre
  rcases hd : e.deck with _ | d0
  · intro p hp
    simp only [ensureDeck_unloaded hd] at hp
    have hv : p.2 ∈ values (materialize catalog (loadDeck e.storage.deckSlot)) :=
      List.mem_map.mpr ⟨p, hp, rfl⟩
    rcases values_materialize_shape catalog _ hv with hmem | ⟨c, _, hfc⟩
    · rw [ih1 hd] at hmem
      simp [loadDeck, values] at hmem
    · rw [hfc]
      exact goodCard_freshCard c
  · intro p hp
    simp only [ensureDeck_loaded catalog hd] at hp
    exact ih2 d0 hd p hp

/-- C10: in every engine reachable from a fresh install by recorded
answers over the real catalog, a correct answer leaves the answered card
with interval at least 1, hence with due strictly greater than lastSeen: a
correctly answered card is never due at the very tick it was answered; the
interval 0 immediately-due state arises only from incorrect answers. -/
theorem correct_answer_due_strict (e e1 : Engine)
    (hand position : String) (hre : Reachable getAllCombos e)
    (hrec : recordAnswer getAllCombos e hand position true = some e1) :
    ∀ d1, e1.deck = some d1 →
      ∀ c1, mapGet d1 (hand ++ "|" ++ position) = some c1 →
        1 ≤ c1.interval ∧ c1.lastSeen < c1.due := by
  have hgood := ensured_good hre
  rcases recordAnswer_ensured hrec with ⟨hnone, he1⟩ | ⟨card, s, hcard, hs, he1⟩
  · subst he1
    intro d1 hd1 c1 hc1
    have hd2 : (ensureDeck getAllCombos e).1 = d1 :=
      Option.some.inj ((ensureDeck_deck_eq getAllCombos e).symm.trans hd1)
    rw [← hd2, hnone] at hc1
    exact absurd hc1 (by simp)
  · subst he1
    intro d1 hd1 c1 hc1
    have hd2 := Option.some.inj hd1
    rw [← hd2, mapGet_mapSet_self] at hc1
    have hcc := Option.some.inj hc1
    have hg : GoodCard card := hgood _ (mapGet_mem hcard)
    have hga := goodCard_answeredCard true
      ((ensureDeck getAllCombos e).2.clock + 1) hg
    have hint : 1 ≤ (answeredCard card true
        ((ensureDeck getAllCombos e).2.clock + 1)).interval := by
      apply hga.2.2.2.1
      rw [answeredCard_correct_reps]
      have := hg.2.2.1
      omega
    obtain ⟨hdue, hlast⟩ := answeredCard_due card true
      ((ensureDeck getAllCombos e).2.clock + 1)
    rw [← hcc]
    exact ⟨hint, by rw [hdue, hlast]; omega⟩

/-- C10 witness: the first correct answer from a fresh install, on the
identity AA at UTG of the real catalog. -/
theorem correct_answer_due_strict_witness :
    ∃ e1 d1 c1,
      recordAnswer getAllCombos freshEngine "AA" "UTG" true = some e1 ∧
      e1.deck = some d1 ∧ mapGet d1 ("AA" ++ "|" ++ "UTG") = some c1 ∧
      1 ≤ c1.interval ∧ c1.lastSeen < c1.due := by
  obtain ⟨h1, h2⟩ := correct_answer_due_strict freshEngine _
    "AA" "UTG" Reachable.init rfl _ rfl _ rfl
  exact ⟨_, _, _, rfl, rfl, rfl, h1, h2⟩

end PokerSRS
